import Mathlib

/-!
# hone: configuration decoder, git environment and kaniko registry config

A shallow embedding of `pkg/config2/config.go` (the `Parser` with `DecodeEnv`,
`DecodeSecrets`, `DecodeJobs`, `decodeJob`), of the git reader exercised by
`pkg/git/git_test.go`, and of `cmd/kaniko/kaniko.go`.

Go maps are association lists with unique keys, Go `error` values are
`Option GoError` (`none` is `nil`), and the libraries the code calls (gohcl, cty,
the process environment, the secret store, the graph) are explicit arguments.
-/

namespace Hone

deriving instance DecidableEq for Except

/-! ## Go maps -/

/-- A Go `map[string]α`: an association list in which `mapSet` keeps keys unique. -/
abbrev GoMap (α : Type) := List (String × α)

/-- Lookup `m[k]` with the comma-ok result. -/
def mapGet {α : Type} : GoMap α → String → Option α
  | [], _ => none
  | (k', v) :: m, k => if k' = k then some v else mapGet m k

/-- Assignment `m[k] = v`. -/
def mapSet {α : Type} : GoMap α → String → α → GoMap α
  | [], k, v => [(k, v)]
  | (k', v') :: m, k, v => if k' = k then (k, v) :: m else (k', v') :: mapSet m k v

/-- The keys of a map. -/
def mapKeys {α : Type} (m : GoMap α) : List String := m.map Prod.fst

/-- Indexing `m[k]` on a `map[string]string`: the zero value `""` for a missing key. -/
def mapIndex (m : GoMap String) (k : String) : String := (mapGet m k).getD ""

/-! ## Strings -/

/-- Cut a character list at the first occurrence of `sep`. -/
def cutFirst (sep : Char) : List Char → Option (List Char × List Char)
  | [] => none
  | c :: cs =>
    if c = sep then some ([], cs)
    else match cutFirst sep cs with
      | none => none
      | some (a, b) => some (c :: a, b)

/-- The pieces of `strings.SplitN` on character lists, for a one-character separator. -/
def splitNChars (sep : Char) : Nat → List Char → List (List Char)
  | 0, _ => []
  | 1, s => [s]
  | n + 2, s =>
    match cutFirst sep s with
    | none => [s]
    | some (a, b) => a :: splitNChars sep (n + 1) b

/-- Go `strings.SplitN(s, sep, n)` for a one-character separator and `n ≥ 0`. -/
def SplitN (s : String) (sep : Char) (n : Nat) : List String :=
  (splitNChars sep n s.data).map String.mk

/-! ## Process environment -/

/-- The process environment: `none` for an unset variable. -/
abbrev Environ := String → Option String

/-- Go `os.Getenv`: the value, or `""` when the variable is unset. -/
def Getenv (environ : Environ) (key : String) : String := (environ key).getD ""

/-! ## Diagnostics and errors -/

/-- Severity of an `hcl.Diagnostic`. -/
inductive Severity where
  | DiagError
  | DiagWarning
  deriving DecidableEq, Repr

/-- An `hcl.Diagnostic`, reduced to severity and summary. -/
structure Diagnostic where
  severity : Severity
  summary : String
  deriving DecidableEq, Repr

/-- The slice type `hcl.Diagnostics`. -/
abbrev Diagnostics := List Diagnostic

/-- The method `hcl.Diagnostics.HasErrors`. -/
def HasErrors (d : Diagnostics) : Bool := d.any (fun x => x.severity = Severity.DiagError)

/-- A non-nil Go `error`: its dynamic type is `hcl.Diagnostics` or something else. -/
inductive GoError where
  | diags (d : Diagnostics)
  | other (msg : String)
  deriving DecidableEq, Repr

/-- `Parser.checkErrors`: diagnostics without an error entry become `nil`, diagnostics with
one are returned (after being printed), any other error is passed through. -/
def checkErrors (err : Option GoError) : Option GoError :=
  match err with
  | some (GoError.diags e) => if HasErrors e then some (GoError.diags e) else none
  | other => other

/-! ## Git reader -/

/-- Modelled from the spec: the state of an opened repository that the git reader looks
at (`pkg/git` is present only through its tests): the commit at HEAD when there is one, the
short branch name when HEAD is on a branch, and the tag at HEAD when there is one. -/
structure GitHead where
  commit : String
  branch : Option String
  tag : Option String
  deriving DecidableEq, Repr

/-- Modelled from the spec: `git.Repository`, whose `Repo` is nil (`none`), or an opened
repository that is empty (`some none`) or has a HEAD. -/
structure Repository where
  Repo : Option (Option GitHead)
  deriving DecidableEq, Repr

/-- Modelled from the spec: `Repository.Tag`, the tag at HEAD or empty, with the errors the
tests expect. -/
def Repository.Tag (r : Repository) : String × Option String :=
  match r.Repo with
  | none => ("", some "Repository not set.")
  | some none => ("", some "reference not found")
  | some (some h) => (h.tag.getD "", none)

/-- Modelled from the spec: `Repository.Commit`, the hash of the commit at HEAD. -/
def Repository.Commit (r : Repository) : String × Option String :=
  match r.Repo with
  | none => ("", some "Repository not set.")
  | some none => ("", some "reference not found")
  | some (some h) => (h.commit, none)

/-- Modelled from the spec: `Repository.Branch`, the short branch name or empty when HEAD is
detached. -/
def Repository.Branch (r : Repository) : String × Option String :=
  match r.Repo with
  | none => ("", some "Repository not set.")
  | some none => ("", some "reference not found")
  | some (some h) => (h.branch.getD "", none)

/-- Modelled from the spec: `Repository.GitEnv`, the four `GIT_*` keys, an unavailable value
being downgraded to the empty string; `GIT_COMMIT_SHORT` is the first 8 characters. -/
def Repository.GitEnv (r : Repository) : GoMap String :=
  let env : GoMap String := []
  let env := mapSet env "GIT_TAG" r.Tag.1
  let env := mapSet env "GIT_COMMIT" r.Commit.1
  let env := mapSet env "GIT_COMMIT_SHORT" (String.mk (r.Commit.1.data.take 8))
  mapSet env "GIT_BRANCH" r.Branch.1

/-! ## Jobs, bodies and the evaluation context -/

/-- Modelled from the spec: `job.Job` (the `job` package is not among the sources), with the
attributes of the data model. -/
structure Job where
  Name : String
  Image : String := ""
  Shell : String := ""
  Exec : List String := []
  Inputs : List String := []
  Outputs : List String := []
  Env : GoMap String := []
  Deps : List String := []
  deriving DecidableEq, Repr

/-- The cty object `Job.ToCty` produces for a job: a snapshot of its attributes. -/
structure JobCty where
  job : Job
  deriving DecidableEq, Repr

/-- One step of an `hcl.Traversal`. -/
inductive Traverser where
  | TraverseRoot (Name : String)
  | TraverseAttr (Name : String)
  | TraverseIndex (Key : String)
  | TraverseSplat
  deriving DecidableEq, Repr

/-- The slice type `hcl.Traversal`. -/
abbrev Traversal := List Traverser

/-- An `hcl.Attribute`, its expression reduced to the traversals `Expr.Variables()`
returns. -/
structure Attribute where
  Name : String
  Variables : List Traversal
  deriving DecidableEq, Repr

/-- An un-decoded `hcl.Body`: its attributes, the types of its nested blocks, and a source
text that stands for everything else gohcl reads from it. -/
structure Body where
  attributes : List Attribute
  blocks : List String
  source : String := ""
  deriving DecidableEq, Repr

/-- `Body.JustAttributes` of hcl: all attributes, with an error diagnostic when the body
has a nested block. -/
def Body.JustAttributes (b : Body) : List Attribute × Diagnostics :=
  (b.attributes,
    match b.blocks with
    | [] => []
    | ty :: _ => [⟨Severity.DiagError, "Unexpected " ++ ty ++ " block"⟩])

/-- The secret store handle of a `vault` block (`vault.Vault`), reduced to its token and
address. -/
structure Vault where
  Addr : String := ""
  Token : String
  deriving DecidableEq, Repr

/-- A `job "name"` block as the shallow pass sees it. -/
structure JobBlock where
  Name : String
  Remain : Body
  deriving DecidableEq, Repr

/-- What gohcl reads from the top-level body for the three top-level decodes: the
diagnostics of each decode and the decoded fields (`none` is a nil pointer). -/
structure Config where
  envDiags : Diagnostics := []
  Env : Option (List String) := none
  secretsDiags : Diagnostics := []
  Secrets : Option (List String) := none
  Workspace : Option String := none
  Vault : Option Vault := none
  jobsDiags : Diagnostics := []
  Jobs : List JobBlock := []
  deriving DecidableEq, Repr

/-- The map `p.ctx.Variables`, by the three names the parser binds. -/
structure Variables where
  env : Option (GoMap String) := none
  secrets : Option (GoMap String) := none
  jobs : Option (GoMap JobCty) := none
  deriving DecidableEq, Repr

/-- The `Parser`: the parsed body, the variables of its evaluation context, and a count of
the calls of `Parser.Decode` made so far (bookkeeping, not a field of the Go struct). -/
structure Parser where
  body : Config
  vars : Variables := {}
  decodeCalls : Nat := 0
  deriving DecidableEq, Repr

/-- Modelled from the spec: the job graph of `pkg/graph` (not among the sources), as the
nodes it was given, keyed by job name, and the dependencies it was given, each a pair of a
job name and the name of a predecessor. -/
structure Graph where
  nodes : List Job
  deps : List (String × String)
  deriving DecidableEq, Repr

/-- Modelled from the spec: `graph.NewGraph(nil)`, the empty graph. -/
def Graph.NewGraph : Graph := ⟨[], []⟩

/-- Modelled from the spec: `Graph.AddNode`, idempotent by name. -/
def Graph.AddNode (g : Graph) (j : Job) : Graph :=
  if j.Name ∈ g.nodes.map Job.Name then g else { g with nodes := g.nodes ++ [j] }

/-- Modelled from the spec: `Graph.AddDep(job, predecessor-name)`, which tolerates a
predecessor that is not a node and keeps at most one edge per pair. -/
def Graph.AddDep (g : Graph) (j : Job) (dep : String) : Graph :=
  if (j.Name, dep) ∈ g.deps then g else { g with deps := g.deps ++ [(j.Name, dep)] }

/-- The loop of `IterSorted` over the nodes in visiting order: it halts on the first error
of the callback. -/
def visitAll {σ : Type} (visit : σ → Job → σ × Option GoError) : List Job → σ → σ × List GoError
  | [], s => (s, [])
  | n :: ns, s =>
    match visit s n with
    | (s', some e) => (s', [e])
    | (s', none) => visitAll visit ns s'

/-- Modelled from the spec: `Graph.IterSorted`, given the order in which the graph visits
its nodes, or the cycle error it found: on a cycle it returns a non-empty error list and
visits no node. -/
def Graph.IterSorted {σ : Type} (order : Except GoError (List Job))
    (visit : σ → Job → σ × Option GoError) (s : σ) : σ × List GoError :=
  match order with
  | Except.error e => (s, [e])
  | Except.ok nodes => visitAll visit nodes s

/-- The surroundings of a parse: the process environment, what `git.NewRepository` answers,
what `gohcl.DecodeBody` makes of a job body under given variables, `Job.ToCty`, and the
secret store behind a `vault` block (`Vault.Init`, `Vault.LoadSecrets`), and the order in
which the graph's `IterSorted` visits the nodes of a graph (or its cycle error). -/
structure World where
  environ : Environ
  newRepository : Except String Repository
  decodeJobBody : Body → Variables → Job → Job × Diagnostics
  toCty : Job → Except String JobCty
  vaultInit : Vault → Option GoError
  vaultLoadSecrets : Vault → String → List String → GoMap String × Option GoError
  iterOrder : Graph → Except GoError (List Job)

/-- `Parser.Decode`: the `hcl.Diagnostics` of `gohcl.DecodeBody`, returned as an `error`.
The interface value is never nil, also when the diagnostics are empty. -/
def Parser.Decode (p : Parser) (diags : Diagnostics) : Parser × Option GoError :=
  ({ p with decodeCalls := p.decodeCalls + 1 }, some (GoError.diags diags))

/-- `Parser.DecodeBody`: decode the top-level body and check the diagnostics. -/
def Parser.DecodeBody (p : Parser) (diags : Diagnostics) : Parser × Option GoError :=
  let (p, err) := p.Decode diags
  (p, checkErrors err)

/-! ## DecodeEnv -/

/-- The loop body of `DecodeEnv`: one item `KEY` or `KEY=DEFAULT`. -/
def envItem (environ : Environ) (envMap : GoMap String) (key : String) : GoMap String :=
  let env := SplitN key '=' 2
  let defaultVal := if env.length > 1 then env.getD 1 "" else ""
  let val := Getenv environ (env.getD 0 "")
  let val := if val = "" then defaultVal else val
  mapSet envMap (env.getD 0 "") val

/-- The loop `for key, value := range m { envMap[key] = value }`. -/
def mergeMap (envMap m : GoMap String) : GoMap String :=
  m.foldl (fun acc kv => mapSet acc kv.1 kv.2) envMap

/-- `Parser.DecodeEnv`: the parser afterwards, the returned map and the returned error. -/
def Parser.DecodeEnv (w : World) (p : Parser) : Parser × GoMap String × Option GoError :=
  let envMap : GoMap String := []
  let (p, err) := p.DecodeBody p.body.envDiags
  match err with
  | some e => (p, envMap, some e)
  | none =>
    let envMap :=
      match p.body.Env with
      | some items => items.foldl (envItem w.environ) envMap
      | none => envMap
    let envMap :=
      match w.newRepository with
      | Except.ok repo => mergeMap envMap repo.GitEnv
      | Except.error _ => envMap
    ({ p with vars := { p.vars with env := some envMap } }, envMap, none)

/-! ## DecodeSecrets -/

/-- A call the parser makes to the secret store (bookkeeping for the claims about when the
store is consulted). -/
inductive StoreCall where
  | Init (v : Vault)
  | LoadSecrets (v : Vault) (workspace : String) (names : List String)
  deriving DecidableEq, Repr

/-- The closure `setSecrets` of `DecodeSecrets`: bind the map as variable `secrets`, the
empty map through `cty.MapValEmpty`. `gocty.ToCtyValue` does not fail on a
`map[string]string`. -/
def setSecrets (p : Parser) (secretsMap : GoMap String) : Parser × Option GoError :=
  if secretsMap.length = 0 then
    ({ p with vars := { p.vars with secrets := some [] } }, none)
  else
    ({ p with vars := { p.vars with secrets := some secretsMap } }, none)

/-- The loop `for _, secret := range secrets { secretsMap[secret] = os.Getenv(secret) }`. -/
def secretsFromEnv (environ : Environ) (secrets : List String) (secretsMap : GoMap String) :
    GoMap String :=
  secrets.foldl (fun m secret => mapSet m secret (Getenv environ secret)) secretsMap

/-- The result of `DecodeSecrets`: the parser afterwards, the returned map and error, and
the calls made to the secret store, in order. -/
structure SecretsResult where
  parser : Parser
  secretsMap : GoMap String
  err : Option GoError
  calls : List StoreCall

/-- `Parser.DecodeSecrets`. -/
def Parser.DecodeSecrets (w : World) (p : Parser) : SecretsResult :=
  let secretsMap : GoMap String := []
  let (p, err) := p.DecodeBody p.body.secretsDiags
  match err with
  | some e => ⟨p, secretsMap, some e, []⟩
  | none =>
    match p.body.Secrets with
    | none =>
      let (p, err) := setSecrets p secretsMap
      ⟨p, secretsMap, err, []⟩
    | some secrets =>
      let workspace :=
        match p.body.Workspace with
        | some ws => ws
        | none => "default"
      let secretsMap := secretsFromEnv w.environ secrets secretsMap
      match p.body.Vault with
      | none =>
        let (p, err) := setSecrets p secretsMap
        ⟨p, secretsMap, err, []⟩
      | some vault =>
        if vault.Token = "" then
          let (p, err) := setSecrets p secretsMap
          ⟨p, secretsMap, err, []⟩
        else
          match w.vaultInit vault with
          | some e => ⟨p, secretsMap, some e, [StoreCall.Init vault]⟩
          | none =>
            let (loaded, err) := w.vaultLoadSecrets vault workspace secrets
            let calls := [StoreCall.Init vault, StoreCall.LoadSecrets vault workspace secrets]
            match err with
            | some e => ⟨p, loaded, some e, calls⟩
            | none =>
              let (p, err) := setSecrets p loaded
              ⟨p, loaded, err, calls⟩

/-! ## DecodeJobs -/

/-- How a call ends when it does not return its value: with a returned `error`, or with a
run-time panic. -/
inductive Failure where
  | error (e : GoError)
  | panic (msg : String)
  deriving DecidableEq, Repr

/-- `Traversal.RootName` of hcl: the name of the root step; it panics on a relative
traversal. -/
def Traversal.RootName (t : Traversal) : Except Failure String :=
  match t with
  | Traverser.TraverseRoot name :: _ => Except.ok name
  | _ => Except.error (Failure.panic "can't use RootName on a relative traversal")

/-- The body of the innermost loop of the shallow pass, for one `variable` (here `tr`) of
an attribute expression of job `j`. The index expression `variable[1]` panics when the
traversal has a single step. -/
def addVariableDep (j : Job) (g : Graph) (tr : Traversal) : Except Failure Graph :=
  match Traversal.RootName tr with
  | Except.error f => Except.error f
  | Except.ok root =>
    if root ≠ "jobs" then Except.ok g
    else
      match tr.get? 1 with
      | none => Except.error (Failure.panic "index out of range [1] with length 1")
      | some (Traverser.TraverseAttr depName) => Except.ok (g.AddDep j depName)
      | some _ => Except.ok g

/-- The loop over the variables of one attribute. -/
def addAttributeDeps (j : Job) (g : Graph) (attr : Attribute) : Except Failure Graph :=
  attr.Variables.foldlM (addVariableDep j) g

/-- The body of the first loop of `DecodeJobs`, for one `job` block. -/
def shallowJob (acc : Graph × GoMap Body) (blk : JobBlock) :
    Except Failure (Graph × GoMap Body) :=
  let remains := mapSet acc.2 blk.Name blk.Remain
  let j : Job := { Name := blk.Name }
  let g := acc.1.AddNode j
  let (attributes, diags) := blk.Remain.JustAttributes
  match checkErrors (some (GoError.diags diags)) with
  | some err => Except.error (Failure.error err)
  | none =>
    match attributes.foldlM (addAttributeDeps j) g with
    | Except.error f => Except.error f
    | Except.ok g => Except.ok (g, remains)

/-- The first loop of `DecodeJobs` (the shallow pass): the graph and the un-decoded bodies
by job name. -/
def shallowPass (blocks : List JobBlock) : Except Failure (Graph × GoMap Body) :=
  blocks.foldlM shallowJob (Graph.NewGraph, [])

/-- `Parser.decodeJob`: the parser afterwards, the job as decoded so far, and the returned
error. -/
def Parser.decodeJob (w : World) (p : Parser) (job : Job) (body : Body) (depth : Nat) :
    Parser × Job × Option GoError :=
  let decoded := w.decodeJobBody body p.vars job
  let job := decoded.1
  let (p, decodeErr) := p.Decode decoded.2
  let jobMap : GoMap JobCty :=
    match p.vars.jobs with
    | none => []
    | some m => m
  match w.toCty job with
  | Except.error e => (p, job, some (GoError.other e))
  | Except.ok jobCty =>
    let jobMap := mapSet jobMap job.Name jobCty
    let p := { p with vars := { p.vars with jobs := some jobMap } }
    match decodeErr with
    | some (GoError.diags e) =>
      if h : depth > 20 then (p, job, checkErrors (some (GoError.diags e)))
      else Parser.decodeJob w p job body (depth + 1)
    | _ => (p, job, none)
termination_by 21 - depth
decreasing_by omega

/-- The body a missing key of `remains` yields. -/
def nilBody : Body := ⟨[], [], ""⟩

/-- The callback `DecodeJobs` hands to `IterSorted`; the state is the parser and the slice
`jobs`. -/
def visitJob (w : World) (remains : GoMap Body) (s : Parser × List Job) (node : Job) :
    (Parser × List Job) × Option GoError :=
  match s.1.decodeJob w node ((mapGet remains node.Name).getD nilBody) 0 with
  | (p, _, some e) => ((p, s.2), some e)
  | (p, job, none) => ((p, s.2 ++ [job]), none)

/-- `Parser.DecodeJobs`: the parser afterwards and the returned jobs, or how the call
failed. -/
def Parser.DecodeJobs (w : World) (p : Parser) : Except Failure (Parser × List Job) :=
  let (p, err) := p.DecodeBody p.body.jobsDiags
  match err with
  | some e => Except.error (Failure.error e)
  | none =>
    match shallowPass p.body.Jobs with
    | Except.error f => Except.error f
    | Except.ok (g, remains) =>
      match Graph.IterSorted (w.iterOrder g) (visitJob w remains) (p, []) with
      | (_, e :: _) => Except.error (Failure.error e)
      | ((p, jobs), []) => Except.ok (p, jobs)

/-! ## kaniko: the registry config -/

/-- A JSON value, as far as the registry config needs it. -/
inductive Json where
  | str (s : String)
  | obj (members : List (String × Json))

/-- A struct field as `encoding/json` sees it through reflection: its Go name and its tag. -/
structure StructField where
  Name : String
  Tag : String
  deriving DecidableEq, Repr

/-- The scan of a key in `reflect.StructTag.Lookup`: the characters before the first space,
colon, quote or control character, and the rest. -/
def scanTagName : List Char → List Char × List Char
  | [] => ([], [])
  | c :: cs =>
    if c.toNat > 32 ∧ c ≠ ':' ∧ c ≠ '"' ∧ c.toNat ≠ 127 then
      ((c :: (scanTagName cs).1), (scanTagName cs).2)
    else ([], c :: cs)

/-- The scan of a quoted value in `reflect.StructTag.Lookup`, after the opening quote: the
value with `\"` and `\\` unquoted, and the rest after the closing quote; `none` when the
quote is not closed. -/
def scanTagValue : List Char → Option (List Char × List Char)
  | [] => none
  | '"' :: cs => some ([], cs)
  | '\\' :: c :: cs =>
    match scanTagValue cs with
    | none => none
    | some (v, rest) => some (c :: v, rest)
  | c :: cs =>
    match scanTagValue cs with
    | none => none
    | some (v, rest) => some (c :: v, rest)

/-- The loop of `reflect.StructTag.Lookup` on character lists; `fuel` bounds the number of
`key:"value"` pairs read. -/
def tagLookupChars (key : List Char) : Nat → List Char → Option (List Char)
  | 0, _ => none
  | fuel + 1, tag =>
    match scanTagName (tag.dropWhile (fun c => c = ' ')) with
    | ([], _) => none
    | (name, ':' :: '"' :: rest) =>
      match scanTagValue rest with
      | none => none
      | some (value, rest') => if key = name then some value else tagLookupChars key fuel rest'
    | _ => none

/-- Go `reflect.StructTag.Get`: the value of `key` in a conventionally formatted tag, or
`""` when the tag has no such key or is malformed before it. -/
def StructTag.Get (tag key : String) : String :=
  match tagLookupChars key.data (tag.data.length + 1) tag.data with
  | some v => String.mk v
  | none => ""

/-- The predicate `isValidTag` of `encoding/json` on a tag name. -/
def isValidTag (name : String) : Bool :=
  name ≠ "" ∧ name.data.all (fun c =>
    c.isAlphanum || c ∈ "!#$%&()*+-./:;<=>?@[]^_\x7b|\x7d~ ".data)

/-- The key under which `encoding/json` encodes a struct field: the name in its `json` tag
(up to the first comma) when that is a valid name, else the Go field name; `none` for a
field the tag `-` leaves out. -/
def jsonFieldName (f : StructField) : Option String :=
  let tag := StructTag.Get f.Tag "json"
  if tag = "-" then none
  else
    let name := (SplitN tag ',' 2).getD 0 ""
    if isValidTag name then some name else some f.Name

/-- The field `Auth` of `DockerAuth`, with the tag the source gives it. -/
def DockerAuth.AuthField : StructField := ⟨"Auth", "json\"auth\""⟩

/-- The field `Auths` of `DockerConfig`, with the tag the source gives it. -/
def DockerConfig.AuthsField : StructField := ⟨"Auths", "json:\"auths\""⟩

/-- The struct `DockerAuth`. -/
structure DockerAuth where
  Auth : String
  deriving DecidableEq, Repr

/-- The struct `DockerConfig`. -/
structure DockerConfig where
  Auths : GoMap DockerAuth
  deriving DecidableEq, Repr

/-- One member of a JSON object for a struct field, unless the field is left out. -/
def jsonMember (f : StructField) (v : Json) : List (String × Json) :=
  match jsonFieldName f with
  | some name => [(name, v)]
  | none => []

/-- What `encoding/json` writes for a `DockerAuth`. -/
def DockerAuth.toJson (a : DockerAuth) : Json :=
  Json.obj (jsonMember DockerAuth.AuthField (Json.str a.Auth))

/-- What `encoding/json` writes for a `DockerConfig` (one registry at most, so the order of
the map keys plays no part). -/
def DockerConfig.toJson (c : DockerConfig) : Json :=
  Json.obj (jsonMember DockerConfig.AuthsField
    (Json.obj (c.Auths.map (fun kv => (kv.1, kv.2.toJson)))))

/-- The UTF-8 bytes of a character. -/
def utf8Bytes (c : Char) : List Nat :=
  let n := c.toNat
  if n < 128 then [n]
  else if n < 2048 then [192 + n / 64, 128 + n % 64]
  else if n < 65536 then [224 + n / 4096, 128 + n / 64 % 64, 128 + n % 64]
  else [240 + n / 262144, 128 + n / 4096 % 64, 128 + n / 64 % 64, 128 + n % 64]

/-- The digit of value `n` in the standard base64 alphabet. -/
def base64Digit (n : Nat) : Char :=
  "ABCDEFGHIJKLMNOPQRSTUVWXYZabcdefghijklmnopqrstuvwxyz0123456789+/".data.getD n 'A'

/-- Standard base64 with padding, on bytes. -/
def base64Bytes : List Nat → List Char
  | a :: b :: c :: rest =>
    base64Digit (a / 4) :: base64Digit (a % 4 * 16 + b / 16) ::
      base64Digit (b % 16 * 4 + c / 64) :: base64Digit (c % 64) :: base64Bytes rest
  | [a, b] =>
    [base64Digit (a / 4), base64Digit (a % 4 * 16 + b / 16), base64Digit (b % 16 * 4), '=']
  | [a] => [base64Digit (a / 4), base64Digit (a % 4 * 16), '=', '=']
  | [] => []

/-- Go `base64.StdEncoding.EncodeToString([]byte(s))`. -/
def EncodeToString (s : String) : String :=
  String.mk (base64Bytes (s.data.flatMap utf8Bytes))

/-- The first part of `main` in `cmd/kaniko`: the value it encodes into
`/root/.docker/config.json`, or `none` when `DOCKER_USER` or `DOCKER_PASS` is empty and no
file is written. -/
def kanikoConfig (environ : Environ) : Option DockerConfig :=
  if Getenv environ "DOCKER_USER" ≠ "" ∧ Getenv environ "DOCKER_PASS" ≠ "" then
    let config : DockerConfig := ⟨[]⟩
    let auth := Getenv environ "DOCKER_USER" ++ ":" ++ Getenv environ "DOCKER_PASS"
    let token := EncodeToString auth
    let registry := Getenv environ "DOCKER_REGISTRY"
    let registry := if registry = "" then "index.docker.io" else registry
    some ⟨mapSet config.Auths ("https://" ++ registry ++ "/v1/") ⟨token⟩⟩
  else none

/-- The JSON document `main` writes to `/root/.docker/config.json`, when it writes one. -/
def kanikoConfigJson (environ : Environ) : Option Json :=
  (kanikoConfig environ).map DockerConfig.toJson

/-- The registry config of the specification for a registry and a token:
an object `auths` with one entry `https://<registry>/v1/` holding the member `auth`. -/
def registryConfigForm (registry token : String) : Json :=
  Json.obj [("auths", Json.obj [("https://" ++ registry ++ "/v1/",
    Json.obj [("auth", Json.str token)])])]

/-! ## Definitions used to state the properties -/

/-- The KEY of an env item: `env[0]` in the loop of `DecodeEnv`. -/
def envKey (item : String) : String := (SplitN item '=' 2).getD 0 ""

/-- The DEFAULT of an env item: `defaultVal` in the loop of `DecodeEnv`. -/
def envDefault (item : String) : String :=
  if (SplitN item '=' 2).length > 1 then (SplitN item '=' 2).getD 1 "" else ""

/-- The value the specification gives to an env item: the value of KEY in the process
environment, the DEFAULT when KEY is unset. -/
def specEnvValue (environ : Environ) (item : String) : String :=
  match environ (envKey item) with
  | some v => v
  | none => envDefault item

/-- A world for the examples: `BAR=x` is the only variable of the process environment,
there is no git repository, every job body decodes cleanly, the secret store is empty and
the graph visits its nodes in the order they were added. -/
def exampleWorld : World where
  environ := fun k => if k = "BAR" then some "x" else none
  newRepository := Except.error "repository does not exist"
  decodeJobBody := fun _ _ j => (j, [])
  toCty := fun j => Except.ok ⟨j⟩
  vaultInit := fun _ => none
  vaultLoadSecrets := fun _ _ _ => ([], none)
  iterOrder := fun g => Except.ok g.nodes

/-- The configuration of the env-fallback scenario: `env = ["FOO=default", "BAR"]`. -/
def envScenario : Parser := { body := { Env := some ["FOO=default", "BAR"] } }

/-- A world in which the variable `A` is set, to the empty string. -/
def emptyValueWorld : World :=
  { exampleWorld with environ := fun k => if k = "A" then some "" else none }

/-- A configuration with the single env item `A=d`. -/
def singleItemConfig : Parser := { body := { Env := some ["A=d"] } }

/-- A configuration that names the key `A` twice, with different defaults. -/
def repeatedKeyConfig : Parser := { body := { Env := some ["A=1", "A=2"] } }

/-- A configuration without any top-level declaration. -/
def emptyConfig : Parser := { body := {} }

/-- A secret store for the examples: `Init` succeeds and `LoadSecrets` answers every name
with the value `s3cr3t`. -/
def vaultWorld : World :=
  { exampleWorld with
    vaultLoadSecrets := fun _ _ names => (names.map (fun n => (n, "s3cr3t")), none) }

/-- A configuration with `secrets = ["BAR"]` and a `vault` block holding a token. -/
def vaultConfig : Parser :=
  { body := { Secrets := some ["BAR"], Vault := some { Token := "t0k3n" } } }

/-- Job block `blk` has an attribute expression with a free variable of the form
`jobs.<a>…`: a traversal rooted at `jobs` whose second step is the attribute access `.a`. -/
def RefersByAttr (blk : JobBlock) (a : String) : Prop :=
  ∃ attr ∈ blk.Remain.attributes, ∃ rest : Traversal,
    (Traverser.TraverseRoot "jobs" :: Traverser.TraverseAttr a :: rest) ∈ attr.Variables

/-- The block of a job `a` without attributes. -/
def jobA : JobBlock := ⟨"a", ⟨[], [], ""⟩⟩

/-- The block of job `b` of the cross-reference scenario: `env` holds
`X = "${jobs.a.outputs[0]}"`. -/
def jobBRefA : JobBlock :=
  ⟨"b", ⟨[⟨"env", [[Traverser.TraverseRoot "jobs", Traverser.TraverseAttr "a",
    Traverser.TraverseAttr "outputs", Traverser.TraverseIndex "0"]]⟩], [], ""⟩⟩

/-- A block of job `b` that refers to job `a` in index form: `x = jobs["a"].outputs`. -/
def jobBIndexA : JobBlock :=
  ⟨"b", ⟨[⟨"x", [[Traverser.TraverseRoot "jobs", Traverser.TraverseIndex "a",
    Traverser.TraverseAttr "outputs"]]⟩], [], ""⟩⟩

/-- A block of job `b` with a bare reference to the variable `jobs`: `x = jobs`. -/
def jobBBareJobs : JobBlock :=
  ⟨"b", ⟨[⟨"x", [[Traverser.TraverseRoot "jobs"]]⟩], [], ""⟩⟩

/-- The parser and the job after one pass through the body of `decodeJob`: the body is
decoded into the job, and when `ToCty` succeeds the job is bound into the variable `jobs`. -/
def decodeAttempt (w : World) (body : Body) (s : Parser × Job) : Parser × Job :=
  match w.toCty (w.decodeJobBody body s.1.vars s.2).1 with
  | Except.ok jobCty =>
    ({ s.1 with
        decodeCalls := s.1.decodeCalls + 1
        vars := { s.1.vars with
          jobs := some (mapSet
            (match s.1.vars.jobs with
              | none => []
              | some m => m)
            (w.decodeJobBody body s.1.vars s.2).1.Name jobCty) } },
      (w.decodeJobBody body s.1.vars s.2).1)
  | Except.error _ =>
    ({ s.1 with decodeCalls := s.1.decodeCalls + 1 }, (w.decodeJobBody body s.1.vars s.2).1)

/-- What the decode attempt number `k` (counted from 0) of `decodeJob` gets from
`gohcl.DecodeBody`, when the call starts with parser `p` and job `job`: the decoded job
and the diagnostics. -/
def attemptResult (w : World) (body : Body) (p : Parser) (job : Job) (k : Nat) :
    Job × Diagnostics :=
  w.decodeJobBody body ((decodeAttempt w body)^[k] (p, job)).1.vars
    ((decodeAttempt w body)^[k] (p, job)).2

/-- A world in which a job body refers to `jobs.z`: a decode reports an unknown variable
unless the variable `jobs` holds a job `z`. -/
def unresolvedWorld : World :=
  { exampleWorld with
    decodeJobBody := fun _ vars j =>
      (j, match vars.jobs with
        | none => [⟨Severity.DiagError, "Unknown variable jobs.z"⟩]
        | some m =>
          if (mapGet m "z").isSome then []
          else [⟨Severity.DiagError, "Unknown variable jobs.z"⟩]) }

/-- A world whose secret store cannot be initialised, with `BAR=x` in the environment; its
`LoadSecrets` would answer every name with `s3cr3t`. -/
def initFailsWorld : World :=
  { exampleWorld with
    vaultInit := fun _ => some (GoError.other "vault is sealed")
    vaultLoadSecrets := fun _ _ names => (names.map (fun n => (n, "s3cr3t")), none) }

/-- A configuration with `secrets = ["BAR"]` and a `vault` block holding a token, whose
decode reports an error (an unknown variable in `workspace`). -/
def undecodableVaultConfig : Parser :=
  { body := { secretsDiags := [⟨Severity.DiagError, "Unknown variable"⟩],
              Secrets := some ["BAR"], Vault := some { Token := "t0k3n" } } }

/-- A world in which every decode of a job body reports an unknown variable. -/
def failingWorld : World :=
  { exampleWorld with
    decodeJobBody := fun _ _ j => (j, [⟨Severity.DiagError, "Unknown variable"⟩]) }

/-- A process environment with `DOCKER_USER=u`, `DOCKER_PASS=p` and no `DOCKER_REGISTRY`. -/
def dockerEnviron : Environ :=
  fun k => if k = "DOCKER_USER" then some "u" else if k = "DOCKER_PASS" then some "p" else none

/-- Name `a` appears before name `b` in the list `l` (both appear, `a` first). -/
def Before (a b : String) (l : List String) : Prop :=
  a ∈ l ∧ b ∈ l ∧ l.indexOf a < l.indexOf b

instance (a b : String) (l : List String) : Decidable (Before a b l) :=
  inferInstanceAs (Decidable (a ∈ l ∧ b ∈ l ∧ l.indexOf a < l.indexOf b))

/-- The visiting order `order` is a topological order of the graph `g`: it visits the nodes
of `g`, and for every dependency the graph was given between two of its nodes, the
predecessor comes before the job. -/
def IsTopological (g : Graph) (order : List Job) : Prop :=
  (∀ n, n ∈ order.map Job.Name ↔ n ∈ g.nodes.map Job.Name) ∧
  ∀ e ∈ g.deps, e.1 ∈ g.nodes.map Job.Name → e.2 ∈ g.nodes.map Job.Name →
    Before e.2 e.1 (order.map Job.Name)

/-- The edges of `g` whose job has been visited are respected by the visited names. -/
def EdgesRespected (g : Graph) (visited : List Job) : Prop :=
  ∀ e ∈ g.deps, e.2 ∈ g.nodes.map Job.Name → e.1 ∈ visited.map Job.Name →
    Before e.2 e.1 (visited.map Job.Name)

/-- A node is ready when each of its predecessors that is a node has been visited. -/
def nodeReady (g : Graph) (visited : List Job) (n : Job) : Bool :=
  g.deps.all (fun e =>
    decide (e.1 ≠ n.Name) || decide (e.2 ∉ g.nodes.map Job.Name)
      || decide (e.2 ∈ visited.map Job.Name))

/-- The error `IterSorted` reports for a cycle. -/
def cycleError : GoError := GoError.other "cycle"

/-- Visit the first ready node among the remaining ones until none remains; a cycle error
when nodes remain and none is ready. -/
def visitReady (g : Graph) : Nat → List Job → List Job → Except GoError (List Job)
  | 0, remaining, visited =>
    if remaining = [] then Except.ok visited else Except.error cycleError
  | fuel + 1, remaining, visited =>
    match remaining.find? (nodeReady g visited) with
    | none => if remaining = [] then Except.ok visited else Except.error cycleError
    | some n => visitReady g fuel (remaining.erase n) (visited ++ [n])

/-- Lexicographic order on lists of character codes. -/
def codesLE : List Nat → List Nat → Bool
  | [], _ => true
  | _ :: _, [] => false
  | a :: as, b :: bs => decide (a < b) || (decide (a = b) && codesLE as bs)

/-- The order of job names: lexicographic by character code. -/
def nameLE (a b : Job) : Prop :=
  codesLE (a.Name.data.map Char.toNat) (b.Name.data.map Char.toNat) = true

instance : DecidableRel nameLE :=
  fun a b => inferInstanceAs
    (Decidable (codesLE (a.Name.data.map Char.toNat) (b.Name.data.map Char.toNat) = true))

/-- Modelled from the spec: the order in which `IterSorted` visits the nodes, a deterministic
topological order with ties broken by name, or a cycle error. -/
def sortedOrder (g : Graph) : Except GoError (List Job) :=
  visitReady g g.nodes.length (g.nodes.insertionSort nameLE) []

/-- The example world with a graph that visits its nodes in `sortedOrder`. -/
def sortedWorld : World := { exampleWorld with iterOrder := sortedOrder }

/-- A world in which job `a` declares `deps = ["b"]`: decoding the body of job `a` sets its
`Deps`; the graph visits its nodes in `sortedOrder`. -/
def depsWorld : World :=
  { exampleWorld with
    iterOrder := sortedOrder
    decodeJobBody := fun _ _ j => (if j.Name = "a" then { j with Deps := ["b"] } else j, []) }

/-- The block of job `a` with the attribute `deps = ["b"]`, an expression without
variables. -/
def jobADepsB : JobBlock := ⟨"a", ⟨[⟨"deps", []⟩], [], "deps = [b]"⟩⟩

/-- The block of a job `b` without attributes. -/
def jobB : JobBlock := ⟨"b", ⟨[], [], ""⟩⟩

/-- The configuration of the cross-reference scenario, with the referring job `b` declared
first. -/
def crossRefConfig : Parser := { body := { Jobs := [jobBRefA, jobA] } }

/-- A configuration in which job `a` declares `deps = ["b"]` and job `b` follows. -/
def explicitDepsConfig : Parser := { body := { Jobs := [jobADepsB, jobB] } }

/-! ## Maps -/

theorem mapGet_mapSet_same {α : Type} (m : GoMap α) (k : String) (v : α) :
    mapGet (mapSet m k v) k = some v := by
  induction m with
  | nil => simp [mapSet, mapGet]
  | cons kv m ih =>
    obtain ⟨k', v'⟩ := kv
    by_cases h : k' = k
    · simp [mapSet, mapGet, h]
    · simp [mapSet, mapGet, h, ih]

theorem mapGet_mapSet_ne {α : Type} (m : GoMap α) (k k' : String) (v : α) (h : k ≠ k') :
    mapGet (mapSet m k v) k' = mapGet m k' := by
  induction m with
  | nil => simp [mapSet, mapGet, h]
  | cons kv m ih =>
    obtain ⟨k₀, v₀⟩ := kv
    by_cases h₀ : k₀ = k
    · subst h₀
      simp [mapSet, mapGet, h]
    · by_cases h₁ : k₀ = k'
      · subst h₁
        simp [mapSet, mapGet, h₀]
      · simp [mapSet, mapGet, h₀, h₁, ih]

theorem mem_mapKeys_mapSet {α : Type} (m : GoMap α) (k k' : String) (v : α) :
    k' ∈ mapKeys (mapSet m k v) ↔ k' = k ∨ k' ∈ mapKeys m := by
  induction m with
  | nil => simp [mapSet, mapKeys]
  | cons kv m ih =>
    obtain ⟨k₀, v₀⟩ := kv
    by_cases h₀ : k₀ = k
    · subst h₀
      simp [mapSet, mapKeys]
    · have ih' : k' ∈ List.map Prod.fst (mapSet m k v) ↔ k' = k ∨ k' ∈ List.map Prod.fst m := ih
      simp only [mapSet, h₀, if_false, mapKeys, List.map_cons, List.mem_cons, ih']
      tauto

theorem mapGet_isSome_iff {α : Type} (m : GoMap α) (k : String) :
    (mapGet m k).isSome ↔ k ∈ mapKeys m := by
  induction m with
  | nil => simp [mapGet, mapKeys]
  | cons kv m ih =>
    obtain ⟨k₀, v₀⟩ := kv
    have ih' : (mapGet m k).isSome = true ↔ k ∈ List.map Prod.fst m := ih
    by_cases h₀ : k₀ = k
    · simp [mapGet, mapKeys, h₀]
    · have h₁ : ¬ k = k₀ := fun h => h₀ h.symm
      simp [mapGet, mapKeys, h₀, h₁, ih']

/-! ## Splitting an env item -/

theorem cutFirst_of_not_mem (sep : Char) (s : List Char) (h : sep ∉ s) :
    cutFirst sep s = none := by
  induction s with
  | nil => rfl
  | cons c cs ih =>
    have hc : ¬ c = sep := fun hc => h (by simp [hc])
    have hcs : sep ∉ cs := fun hm => h (List.mem_cons_of_mem _ hm)
    simp [cutFirst, hc, ih hcs]

theorem cutFirst_append (sep : Char) (a b : List Char) (h : sep ∉ a) :
    cutFirst sep (a ++ sep :: b) = some (a, b) := by
  induction a with
  | nil => simp [cutFirst]
  | cons c cs ih =>
    have hc : ¬ c = sep := fun hc => h (by simp [hc])
    have hcs : sep ∉ cs := fun hm => h (List.mem_cons_of_mem _ hm)
    simp [cutFirst, hc, ih hcs]

theorem envKey_envDefault_of_eq (key dflt : String) (h : '=' ∉ key.data) :
    envKey (key ++ "=" ++ dflt) = key ∧ envDefault (key ++ "=" ++ dflt) = dflt := by
  have hd : (key ++ "=" ++ dflt).data = key.data ++ '=' :: dflt.data := by
    simp [String.data_append]
  have hs : SplitN (key ++ "=" ++ dflt) '=' 2 = [key, dflt] := by
    simp [SplitN, hd, splitNChars, cutFirst_append _ _ _ h]
  simp [envKey, envDefault, hs]

theorem envKey_envDefault_of_plain (item : String) (h : '=' ∉ item.data) :
    envKey item = item ∧ envDefault item = "" := by
  have hs : SplitN item '=' 2 = [item] := by
    simp [SplitN, splitNChars, cutFirst_of_not_mem _ _ h]
  simp [envKey, envDefault, hs]

/-! ## DecodeEnv -/

theorem envItem_eq (environ : Environ) (m : GoMap String) (item : String) :
    envItem environ m item = mapSet m (envKey item)
      (if Getenv environ (envKey item) = "" then envDefault item
        else Getenv environ (envKey item)) := rfl

theorem mapGet_foldl_envItem_of_ne (environ : Environ) (post : List String) (k : String)
    (h : ∀ it ∈ post, envKey it ≠ k) (m : GoMap String) :
    mapGet (post.foldl (envItem environ) m) k = mapGet m k := by
  induction post generalizing m with
  | nil => rfl
  | cons it post ih =>
    have h₁ : envKey it ≠ k := h it (by simp)
    have h₂ : ∀ it' ∈ post, envKey it' ≠ k := fun it' hm => h it' (List.mem_cons_of_mem _ hm)
    rw [List.foldl_cons, ih h₂, envItem_eq, mapGet_mapSet_ne _ _ _ _ h₁]

theorem mem_mapKeys_foldl_envItem (environ : Environ) (items : List String) (k : String)
    (m : GoMap String) :
    k ∈ mapKeys (items.foldl (envItem environ) m) ↔
      k ∈ mapKeys m ∨ ∃ it ∈ items, envKey it = k := by
  induction items generalizing m with
  | nil => simp
  | cons it items ih =>
    rw [List.foldl_cons, ih, envItem_eq, mem_mapKeys_mapSet]
    simp only [List.mem_cons, exists_eq_or_imp]
    constructor
    · rintro ((h | h) | h)
      · exact Or.inr (Or.inl h.symm)
      · exact Or.inl h
      · exact Or.inr (Or.inr h)
    · rintro (h | h | h)
      · exact Or.inl (Or.inr h)
      · exact Or.inl (Or.inl h.symm)
      · exact Or.inr h

theorem DecodeBody_of_no_errors (p : Parser) (d : Diagnostics) (h : HasErrors d = false) :
    p.DecodeBody d = ({ p with decodeCalls := p.decodeCalls + 1 }, none) := by
  simp [Parser.DecodeBody, Parser.Decode, checkErrors, h]

theorem DecodeEnv_of_git_error (w : World) (p : Parser) (e : String)
    (hdiag : HasErrors p.body.envDiags = false) (hgit : w.newRepository = Except.error e) :
    p.DecodeEnv w =
      ({ p with
          decodeCalls := p.decodeCalls + 1
          vars := { p.vars with env := some ((p.body.Env.getD []).foldl (envItem w.environ) []) } },
        (p.body.Env.getD []).foldl (envItem w.environ) [], none) := by
  unfold Parser.DecodeEnv
  rw [DecodeBody_of_no_errors p _ hdiag]
  cases henv : p.body.Env <;> simp [hgit, henv]

/-- C1 (amended): when the body decodes and no git metadata is merged, `DecodeEnv` returns
no error and binds the returned map as variable `env`; the map sends the KEY of an item
that is the last one for its KEY to the process-environment value of KEY when that value
is non-empty, and to the item's DEFAULT otherwise (KEY unset, or set to the empty string);
its keys are exactly the KEYs of the items; KEY and DEFAULT are the parts before and after
the first `=`, DEFAULT being empty for an item without `=`. -/
theorem DecodeEnv_items (w : World) (p : Parser) (items pre post : List String)
    (item e : String)
    (hdiag : HasErrors p.body.envDiags = false)
    (hgit : w.newRepository = Except.error e)
    (henv : p.body.Env = some items)
    (hitems : items = pre ++ item :: post)
    (hlast : ∀ it ∈ post, envKey it ≠ envKey item) :
    (p.DecodeEnv w).2.2 = none ∧
    (p.DecodeEnv w).1.vars.env = some (p.DecodeEnv w).2.1 ∧
    mapGet (p.DecodeEnv w).2.1 (envKey item) =
      some (if Getenv w.environ (envKey item) = "" then envDefault item
        else Getenv w.environ (envKey item)) ∧
    (∀ k, k ∈ mapKeys (p.DecodeEnv w).2.1 ↔ ∃ it ∈ items, envKey it = k) ∧
    (∀ key dflt : String, '=' ∉ key.data → item = key ++ "=" ++ dflt →
      envKey item = key ∧ envDefault item = dflt) ∧
    ('=' ∉ item.data → envKey item = item ∧ envDefault item = "") := by
  rw [DecodeEnv_of_git_error w p e hdiag hgit, henv]
  refine ⟨rfl, rfl, ?_, ?_, ?_, ?_⟩
  · simp only [Option.getD_some]
    rw [hitems, List.foldl_append, List.foldl_cons,
      mapGet_foldl_envItem_of_ne _ _ _ hlast, envItem_eq, mapGet_mapSet_same]
  · intro k
    simp only [Option.getD_some]
    rw [mem_mapKeys_foldl_envItem]
    simp [mapKeys]
  · intro key dflt hkey hitem
    rw [hitem]
    exact envKey_envDefault_of_eq key dflt hkey
  · exact envKey_envDefault_of_plain item

/-- C1, the env-fallback scenario: with `env = ["FOO=default", "BAR"]`, `BAR=x` and `FOO`
unset, the item `FOO=default` has KEY `FOO` and the map sends `FOO` to `default`. -/
theorem DecodeEnv_items_witness :
    HasErrors envScenario.body.envDiags = false ∧
    envKey "FOO=default" = "FOO" ∧
    mapGet (envScenario.DecodeEnv exampleWorld).2.1 "FOO" = some "default" ∧
    (envScenario.DecodeEnv exampleWorld).2.1 = [("FOO", "default"), ("BAR", "x")] := by
  have h := DecodeEnv_items exampleWorld envScenario ["FOO=default", "BAR"] [] ["BAR"]
    "FOO=default" "repository does not exist" (by decide) rfl rfl rfl (by decide)
  refine ⟨by decide, by decide, ?_, by decide⟩
  have hk : envKey "FOO=default" = "FOO" := by decide
  have h3 := h.2.2.1
  rw [hk] at h3
  rw [h3]
  decide

/-- C1 as stated fails: with `A` set to the empty string, the item `A=d` yields `d`, not the
process-environment value of `A`; and of two items with the same KEY only the DEFAULT of
the last one is used, so the first item `A=1` does not get its own DEFAULT. -/
theorem DecodeEnv_claim_counterexample :
    (emptyValueWorld.environ (envKey "A=d") = some "" ∧
      specEnvValue emptyValueWorld.environ "A=d" = "" ∧
      mapGet (singleItemConfig.DecodeEnv emptyValueWorld).2.1 (envKey "A=d") = some "d") ∧
    ("A=1" ∈ ["A=1", "A=2"] ∧
      specEnvValue exampleWorld.environ "A=1" = "1" ∧
      mapGet (repeatedKeyConfig.DecodeEnv exampleWorld).2.1 (envKey "A=1") = some "2") := by
  decide

/-- C8 (amended): when the body decodes and `git.NewRepository` returns an error,
`DecodeEnv` returns a nil error and binds as `env` exactly the map built from the declared
env items: no `GIT_*` key is added, so a key is in the map only if an env item declares
it. -/
theorem DecodeEnv_git_unavailable (w : World) (p : Parser) (e : String)
    (hdiag : HasErrors p.body.envDiags = false)
    (hgit : w.newRepository = Except.error e) :
    (p.DecodeEnv w).2.2 = none ∧
    (p.DecodeEnv w).1.vars.env = some (p.DecodeEnv w).2.1 ∧
    (p.DecodeEnv w).2.1 = (p.body.Env.getD []).foldl (envItem w.environ) [] ∧
    (∀ k, k ∈ mapKeys (p.DecodeEnv w).2.1 ↔ ∃ it ∈ p.body.Env.getD [], envKey it = k) := by
  rw [DecodeEnv_of_git_error w p e hdiag hgit]
  refine ⟨rfl, rfl, rfl, ?_⟩
  intro k
  rw [mem_mapKeys_foldl_envItem]
  simp [mapKeys]

/-- C8 in the env-fallback scenario, where there is no repository: the bound `env` has the
keys `FOO` and `BAR` only. -/
theorem DecodeEnv_git_unavailable_witness :
    HasErrors envScenario.body.envDiags = false ∧
    exampleWorld.newRepository = Except.error "repository does not exist" ∧
    (envScenario.DecodeEnv exampleWorld).2.2 = none ∧
    (envScenario.DecodeEnv exampleWorld).1.vars.env
      = some ((envScenario.body.Env.getD []).foldl (envItem exampleWorld.environ) []) := by
  have h := DecodeEnv_git_unavailable exampleWorld envScenario "repository does not exist"
    (by decide) rfl
  exact ⟨by decide, rfl, h.1, h.2.1.trans (congrArg some h.2.2.1)⟩

/-- C8 as stated fails: for a configuration without env items and no repository,
`DecodeEnv` returns no error but the `env` it binds is the empty map, which holds none of
`GIT_TAG`, `GIT_COMMIT`, `GIT_COMMIT_SHORT`, `GIT_BRANCH`. -/
theorem DecodeEnv_git_keys_counterexample :
    (emptyConfig.DecodeEnv exampleWorld).2.2 = none ∧
    (emptyConfig.DecodeEnv exampleWorld).1.vars.env = some [] ∧
    mapGet ([] : GoMap String) "GIT_TAG" = none ∧
    mapGet ([] : GoMap String) "GIT_COMMIT" = none ∧
    mapGet ([] : GoMap String) "GIT_COMMIT_SHORT" = none ∧
    mapGet ([] : GoMap String) "GIT_BRANCH" = none := by
  decide

/-- C9: for a `Repository` whose `Repo` is nil, `Tag`, `Commit` and `Branch` each return the
empty string with the error `Repository not set.`, and `GitEnv` holds the four `GIT_*` keys,
each with the empty string. -/
theorem GitEnv_repository_not_set :
    Repository.Tag ⟨none⟩ = ("", some "Repository not set.") ∧
    Repository.Commit ⟨none⟩ = ("", some "Repository not set.") ∧
    Repository.Branch ⟨none⟩ = ("", some "Repository not set.") ∧
    mapIndex (Repository.GitEnv ⟨none⟩) "GIT_TAG" = "" ∧
    mapIndex (Repository.GitEnv ⟨none⟩) "GIT_COMMIT" = "" ∧
    mapIndex (Repository.GitEnv ⟨none⟩) "GIT_COMMIT_SHORT" = "" ∧
    mapIndex (Repository.GitEnv ⟨none⟩) "GIT_BRANCH" = "" ∧
    mapKeys (Repository.GitEnv ⟨none⟩)
      = ["GIT_TAG", "GIT_COMMIT", "GIT_COMMIT_SHORT", "GIT_BRANCH"] := by
  decide

/-! ## DecodeSecrets -/

theorem setSecrets_eq (p : Parser) (m : GoMap String) :
    setSecrets p m = ({ p with vars := { p.vars with secrets := some m } }, none) := by
  unfold setSecrets
  split
  · rename_i h
    have hm : m = [] := List.length_eq_zero.mp h
    subst hm
    rfl
  · rfl

theorem mem_mapKeys_secretsFromEnv (environ : Environ) (names : List String) (k : String)
    (m : GoMap String) :
    k ∈ mapKeys (secretsFromEnv environ names m) ↔ k ∈ mapKeys m ∨ k ∈ names := by
  induction names generalizing m with
  | nil => simp [secretsFromEnv]
  | cons n names ih =>
    have ih' := ih (mapSet m n (Getenv environ n))
    simp only [secretsFromEnv, List.foldl_cons] at ih' ⊢
    rw [ih', mem_mapKeys_mapSet]
    simp only [List.mem_cons]
    tauto

theorem mapGet_secretsFromEnv_of_not_mem (environ : Environ) (names : List String)
    (k : String) (h : k ∉ names) (m : GoMap String) :
    mapGet (secretsFromEnv environ names m) k = mapGet m k := by
  induction names generalizing m with
  | nil => rfl
  | cons n names ih =>
    have h₁ : n ≠ k := fun hn => h (by simp [hn])
    have h₂ : k ∉ names := fun hm => h (List.mem_cons_of_mem _ hm)
    have ih' := ih h₂ (mapSet m n (Getenv environ n))
    simp only [secretsFromEnv, List.foldl_cons] at ih' ⊢
    rw [ih', mapGet_mapSet_ne _ _ _ _ h₁]

theorem mapGet_secretsFromEnv (environ : Environ) (names : List String) (k : String)
    (h : k ∈ names) (m : GoMap String) :
    mapGet (secretsFromEnv environ names m) k = some (Getenv environ k) := by
  induction names generalizing m with
  | nil => simp at h
  | cons n names ih =>
    by_cases hk : k ∈ names
    · have ih' := ih hk (mapSet m n (Getenv environ n))
      simp only [secretsFromEnv, List.foldl_cons] at ih' ⊢
      exact ih'
    · have hn : k = n := by
        rcases List.mem_cons.mp h with h' | h'
        · exact h'
        · exact absurd h' hk
      subst hn
      have h' := mapGet_secretsFromEnv_of_not_mem environ names k hk
        (mapSet m k (Getenv environ k))
      simp only [secretsFromEnv, List.foldl_cons] at h' ⊢
      rw [h', mapGet_mapSet_same]

/-- C6 (amended): for a configuration that decodes and has a `secrets` list, the secret
store is called exactly when a `vault` block is present with a non-empty token. In that
case, when `Init` succeeds, the returned map is the one `LoadSecrets(workspace, names)`
gave, the workspace being `default` unless configured, and the error is the one
`LoadSecrets` gave; when `Init` fails, its error is returned with the map of the
process-environment values and `LoadSecrets` is not called. Otherwise the call succeeds and
the returned map has exactly the declared names as keys, each with its process-environment
value. Whenever the call returns no error, the returned map is bound as `secrets`. -/
theorem DecodeSecrets_store (w : World) (p : Parser) (names : List String)
    (hdiag : HasErrors p.body.secretsDiags = false)
    (hsec : p.body.Secrets = some names) :
    ((p.DecodeSecrets w).calls ≠ [] ↔ ∃ v, p.body.Vault = some v ∧ v.Token ≠ "") ∧
    (∀ v, p.body.Vault = some v → v.Token ≠ "" →
      (w.vaultInit v = none →
        (p.DecodeSecrets w).secretsMap
          = (w.vaultLoadSecrets v (p.body.Workspace.getD "default") names).1 ∧
        (p.DecodeSecrets w).err
          = (w.vaultLoadSecrets v (p.body.Workspace.getD "default") names).2 ∧
        (p.DecodeSecrets w).calls = [StoreCall.Init v,
          StoreCall.LoadSecrets v (p.body.Workspace.getD "default") names]) ∧
      (∀ e, w.vaultInit v = some e →
        (p.DecodeSecrets w).err = some e ∧
        (p.DecodeSecrets w).secretsMap = secretsFromEnv w.environ names [] ∧
        (p.DecodeSecrets w).calls = [StoreCall.Init v])) ∧
    ((¬ ∃ v, p.body.Vault = some v ∧ v.Token ≠ "") →
      (p.DecodeSecrets w).err = none ∧
      (∀ k, k ∈ mapKeys (p.DecodeSecrets w).secretsMap ↔ k ∈ names) ∧
      (∀ k ∈ names, mapGet (p.DecodeSecrets w).secretsMap k = some (Getenv w.environ k))) ∧
    ((p.DecodeSecrets w).err = none →
      (p.DecodeSecrets w).parser.vars.secrets = some (p.DecodeSecrets w).secretsMap) := by
  have hws : (match p.body.Workspace with
      | some ws => ws
      | none => "default") = p.body.Workspace.getD "default" := by
    cases p.body.Workspace <;> rfl
  have hkeys : ∀ k, k ∈ mapKeys (secretsFromEnv w.environ names []) ↔ k ∈ names := by
    intro k
    rw [mem_mapKeys_secretsFromEnv]
    simp [mapKeys]
  have hvals : ∀ k ∈ names,
      mapGet (secretsFromEnv w.environ names []) k = some (Getenv w.environ k) :=
    fun k hk => mapGet_secretsFromEnv w.environ names k hk []
  unfold Parser.DecodeSecrets
  rw [DecodeBody_of_no_errors p _ hdiag]
  simp only [hsec, hws, setSecrets_eq]
  cases hv : p.body.Vault with
  | none =>
    simp only [hkeys]
    simpa using hvals
  | some v =>
    by_cases ht : v.Token = ""
    · simp [ht, hkeys]
      exact hvals
    · cases hi : w.vaultInit v with
      | some e => simp [ht, hi]
      | none =>
        rcases hl : w.vaultLoadSecrets v (p.body.Workspace.getD "default") names with ⟨m, err⟩
        cases err with
        | some e => simp [ht, hi, hl]
        | none => simp [ht, hi, hl]

/-- C6 on a configuration with a vault token: the store is called, the returned map is the
one `LoadSecrets("default", ["BAR"])` gave, and it is bound as `secrets`. -/
theorem DecodeSecrets_store_witness :
    HasErrors vaultConfig.body.secretsDiags = false ∧
    vaultConfig.body.Secrets = some ["BAR"] ∧
    (vaultConfig.DecodeSecrets vaultWorld).calls
      = [StoreCall.Init { Token := "t0k3n" },
        StoreCall.LoadSecrets { Token := "t0k3n" } "default" ["BAR"]] ∧
    (vaultConfig.DecodeSecrets vaultWorld).secretsMap = [("BAR", "s3cr3t")] ∧
    (vaultConfig.DecodeSecrets vaultWorld).parser.vars.secrets = some [("BAR", "s3cr3t")] := by
  have hall := DecodeSecrets_store vaultWorld vaultConfig ["BAR"] (by decide) rfl
  have h := (hall.2.1 { Token := "t0k3n" } rfl (by decide)).1 rfl
  have hmap : (vaultConfig.DecodeSecrets vaultWorld).secretsMap = [("BAR", "s3cr3t")] := by
    rw [h.1]
    decide
  refine ⟨by decide, rfl, h.2.2, hmap, ?_⟩
  rw [hall.2.2.2 (by rw [h.2.1]; decide), hmap]

/-- C6 as stated fails. With a vault token and a store whose `Init` fails, the store is
consulted but the returned map is the one of the process-environment values, not the
result of `LoadSecrets`, which is never called. And when the decode of the body reports an
error, the store is not consulted although a `vault` block with a token is present. -/
theorem DecodeSecrets_claim_counterexample :
    (vaultConfig.body.Secrets = some ["BAR"] ∧
      vaultConfig.body.Vault = some { Token := "t0k3n" } ∧
      (vaultConfig.DecodeSecrets initFailsWorld).calls = [StoreCall.Init { Token := "t0k3n" }] ∧
      (vaultConfig.DecodeSecrets initFailsWorld).err = some (GoError.other "vault is sealed") ∧
      (vaultConfig.DecodeSecrets initFailsWorld).secretsMap = [("BAR", "x")] ∧
      (initFailsWorld.vaultLoadSecrets { Token := "t0k3n" } "default" ["BAR"]).1
        = [("BAR", "s3cr3t")]) ∧
    (undecodableVaultConfig.body.Secrets = some ["BAR"] ∧
      undecodableVaultConfig.body.Vault = some { Token := "t0k3n" } ∧
      (undecodableVaultConfig.DecodeSecrets vaultWorld).calls = [] ∧
      (undecodableVaultConfig.DecodeSecrets vaultWorld).secretsMap = []) := by
  decide

/-! ## The shallow pass of DecodeJobs -/

theorem foldlM_ok_mem {σ α ε E : Type} (d : σ → List E) (f : σ → α → Except ε σ)
    (R : α → E → Prop)
    (hf : ∀ s x s', f s x = Except.ok s' → ∀ e, e ∈ d s' ↔ e ∈ d s ∨ R x e)
    (l : List α) (s s' : σ) (h : l.foldlM f s = Except.ok s') (e : E) :
    e ∈ d s' ↔ e ∈ d s ∨ ∃ x ∈ l, R x e := by
  induction l generalizing s with
  | nil =>
    simp only [List.foldlM_nil, pure, Except.pure, Except.ok.injEq] at h
    subst h
    simp
  | cons x l ih =>
    rw [List.foldlM_cons] at h
    cases hx : f s x with
    | error err => simp [hx, bind, Except.bind] at h
    | ok s₁ =>
      simp only [hx, bind, Except.bind] at h
      rw [ih s₁ h, hf s x s₁ hx e]
      simp only [List.mem_cons, exists_eq_or_imp]
      tauto

theorem mem_deps_AddDep (g : Graph) (j : Job) (dep : String) (e : String × String) :
    e ∈ (g.AddDep j dep).deps ↔ e ∈ g.deps ∨ e = (j.Name, dep) := by
  unfold Graph.AddDep
  split
  · rename_i h
    constructor
    · exact Or.inl
    · rintro (h' | h')
      · exact h'
      · rw [h']
        exact h
  · simp

theorem addVariableDep_deps (j : Job) (g g' : Graph) (tr : Traversal)
    (h : addVariableDep j g tr = Except.ok g') (e : String × String) :
    e ∈ g'.deps ↔ e ∈ g.deps ∨
      ∃ a rest, tr = Traverser.TraverseRoot "jobs" :: Traverser.TraverseAttr a :: rest ∧
        e = (j.Name, a) := by
  unfold addVariableDep at h
  match tr, h with
  | [], h => simp [Traversal.RootName] at h
  | Traverser.TraverseAttr _ :: _, h => simp [Traversal.RootName] at h
  | Traverser.TraverseIndex _ :: _, h => simp [Traversal.RootName] at h
  | Traverser.TraverseSplat :: _, h => simp [Traversal.RootName] at h
  | Traverser.TraverseRoot name :: rest, h =>
    simp only [Traversal.RootName] at h
    by_cases hn : name = "jobs"
    · subst hn
      match rest, h with
      | [], h => simp at h
      | Traverser.TraverseAttr d :: rest', h =>
        simp only [ne_eq, not_true_eq_false, if_false, List.get?_cons_succ,
          List.get?_cons_zero, Except.ok.injEq] at h
        subst h
        rw [mem_deps_AddDep]
        simp
      | Traverser.TraverseRoot _ :: _, h =>
        simp at h
        subst h
        simp
      | Traverser.TraverseIndex _ :: _, h =>
        simp at h
        subst h
        simp
      | Traverser.TraverseSplat :: _, h =>
        simp at h
        subst h
        simp
    · simp only [ne_eq, hn, not_false_eq_true, if_true, Except.ok.injEq] at h
      subst h
      simp [hn]

theorem addVariableDep_nodes (j : Job) (g g' : Graph) (tr : Traversal)
    (h : addVariableDep j g tr = Except.ok g') (n : String) :
    n ∈ g'.nodes.map Job.Name ↔ n ∈ g.nodes.map Job.Name ∨ False := by
  have hn : g'.nodes = g.nodes := by
    unfold addVariableDep at h
    split at h
    · simp at h
    · split at h
      · simp only [Except.ok.injEq] at h
        rw [← h]
      · split at h
        · simp at h
        · simp only [Except.ok.injEq] at h
          rw [← h]
          unfold Graph.AddDep
          split <;> rfl
        · simp only [Except.ok.injEq] at h
          rw [← h]
  simp [hn]

theorem addAttributeDeps_deps (j : Job) (g g' : Graph) (attr : Attribute)
    (h : addAttributeDeps j g attr = Except.ok g') (e : String × String) :
    e ∈ g'.deps ↔ e ∈ g.deps ∨
      ∃ a rest, (Traverser.TraverseRoot "jobs" :: Traverser.TraverseAttr a :: rest)
        ∈ attr.Variables ∧ e = (j.Name, a) := by
  have hfold := foldlM_ok_mem Graph.deps (addVariableDep j)
    (fun tr e => ∃ a rest,
      tr = Traverser.TraverseRoot "jobs" :: Traverser.TraverseAttr a :: rest ∧ e = (j.Name, a))
    (fun s x s' hs e => addVariableDep_deps j s s' x hs e) attr.Variables g g' h e
  rw [hfold]
  constructor
  · rintro (h₁ | ⟨tr, htr, a, rest, heq, he⟩)
    · exact Or.inl h₁
    · exact Or.inr ⟨a, rest, heq ▸ htr, he⟩
  · rintro (h₁ | ⟨a, rest, hmem, he⟩)
    · exact Or.inl h₁
    · exact Or.inr ⟨_, hmem, a, rest, rfl, he⟩

theorem addAttributeDeps_nodes (j : Job) (g g' : Graph) (attr : Attribute)
    (h : addAttributeDeps j g attr = Except.ok g') (n : String) :
    n ∈ g'.nodes.map Job.Name ↔ n ∈ g.nodes.map Job.Name ∨ False := by
  have hfold := foldlM_ok_mem (fun g : Graph => g.nodes.map Job.Name) (addVariableDep j)
    (fun _ _ => False)
    (fun s x s' hs e => addVariableDep_nodes j s s' x hs e) attr.Variables g g' h n
  rw [hfold]
  simp

theorem mem_nodes_AddNode (g : Graph) (j : Job) (n : String) :
    n ∈ (g.AddNode j).nodes.map Job.Name ↔ n ∈ g.nodes.map Job.Name ∨ j.Name = n := by
  unfold Graph.AddNode
  split
  · rename_i h
    constructor
    · exact Or.inl
    · rintro (h' | h')
      · exact h'
      · rw [← h']
        exact h
  · simp only [List.map_append, List.map_cons, List.map_nil, List.mem_append,
      List.mem_singleton]
    constructor
    · rintro (h' | h')
      · exact Or.inl h'
      · exact Or.inr h'.symm
    · rintro (h' | h')
      · exact Or.inl h'
      · exact Or.inr h'.symm

theorem shallowJob_ok (acc s' : Graph × GoMap Body) (blk : JobBlock)
    (h : shallowJob acc blk = Except.ok s') :
    ∃ g', blk.Remain.attributes.foldlM (addAttributeDeps ⟨blk.Name, "", "", [], [], [], [], []⟩)
        (acc.1.AddNode ⟨blk.Name, "", "", [], [], [], [], []⟩) = Except.ok g' ∧
      s' = (g', mapSet acc.2 blk.Name blk.Remain) := by
  unfold shallowJob at h
  simp only [Body.JustAttributes] at h
  split at h
  · simp at h
  · split at h
    · simp at h
    · rename_i g' hg
      simp only [Except.ok.injEq] at h
      exact ⟨g', hg, h.symm⟩

theorem shallowJob_deps (acc s' : Graph × GoMap Body) (blk : JobBlock)
    (h : shallowJob acc blk = Except.ok s') (e : String × String) :
    e ∈ s'.1.deps ↔ e ∈ acc.1.deps ∨ (e.1 = blk.Name ∧ RefersByAttr blk e.2) := by
  obtain ⟨g', hg, hs⟩ := shallowJob_ok acc s' blk h
  subst hs
  have hfold := foldlM_ok_mem Graph.deps (addAttributeDeps ⟨blk.Name, "", "", [], [], [], [], []⟩)
    (fun attr e => ∃ a rest,
      (Traverser.TraverseRoot "jobs" :: Traverser.TraverseAttr a :: rest) ∈ attr.Variables
        ∧ e = (blk.Name, a))
    (fun s x s' hs e => addAttributeDeps_deps _ s s' x hs e) _ _ g' hg e
  rw [hfold]
  have hadd : (acc.1.AddNode ⟨blk.Name, "", "", [], [], [], [], []⟩).deps = acc.1.deps := by
    unfold Graph.AddNode
    split <;> rfl
  rw [hadd]
  obtain ⟨e₁, e₂⟩ := e
  constructor
  · rintro (h₁ | ⟨attr, hattr, a, rest, hmem, he⟩)
    · exact Or.inl h₁
    · simp only [Prod.mk.injEq] at he
      refine Or.inr ⟨he.1, attr, hattr, rest, ?_⟩
      rw [he.2]
      exact hmem
  · rintro (h₁ | ⟨he, attr, hattr, rest, hmem⟩)
    · exact Or.inl h₁
    · exact Or.inr ⟨attr, hattr, e₂, rest, hmem, by simp at he; simp [he]⟩

theorem shallowJob_nodes (acc s' : Graph × GoMap Body) (blk : JobBlock)
    (h : shallowJob acc blk = Except.ok s') (n : String) :
    n ∈ s'.1.nodes.map Job.Name ↔ n ∈ acc.1.nodes.map Job.Name ∨ blk.Name = n := by
  obtain ⟨g', hg, hs⟩ := shallowJob_ok acc s' blk h
  subst hs
  have hfold := foldlM_ok_mem (fun g : Graph => g.nodes.map Job.Name)
    (addAttributeDeps ⟨blk.Name, "", "", [], [], [], [], []⟩) (fun _ _ => False)
    (fun s x s' hs e => addAttributeDeps_nodes _ s s' x hs e) _ _ g' hg n
  simp only [hfold, mem_nodes_AddNode]
  simp

theorem shallowPass_deps (blocks : List JobBlock) (g : Graph) (remains : GoMap Body)
    (h : shallowPass blocks = Except.ok (g, remains)) (b a : String) :
    (b, a) ∈ g.deps ↔ ∃ blk ∈ blocks, blk.Name = b ∧ RefersByAttr blk a := by
  have hfold := foldlM_ok_mem (fun s : Graph × GoMap Body => s.1.deps) shallowJob
    (fun blk e => e.1 = blk.Name ∧ RefersByAttr blk e.2)
    (fun s x s' hs e => shallowJob_deps s s' x hs e) blocks _ _ h (b, a)
  simp only [hfold, Graph.NewGraph, List.not_mem_nil, false_or]
  constructor
  · rintro ⟨blk, hblk, hb, hr⟩
    exact ⟨blk, hblk, hb.symm, hr⟩
  · rintro ⟨blk, hblk, hb, hr⟩
    exact ⟨blk, hblk, hb.symm, hr⟩

theorem shallowPass_nodes (blocks : List JobBlock) (g : Graph) (remains : GoMap Body)
    (h : shallowPass blocks = Except.ok (g, remains)) (n : String) :
    n ∈ g.nodes.map Job.Name ↔ ∃ blk ∈ blocks, blk.Name = n := by
  have hfold := foldlM_ok_mem (fun s : Graph × GoMap Body => s.1.nodes.map Job.Name) shallowJob
    (fun blk n => blk.Name = n)
    (fun s x s' hs e => shallowJob_nodes s s' x hs e) blocks _ _ h n
  simp only [hfold, Graph.NewGraph, List.map_nil, List.not_mem_nil, false_or]

/-- C3 (amended): when the shallow pass of `DecodeJobs` completes, the dependencies given to
the graph are exactly these: job `b` gets the predecessor `a` if and only if an attribute
expression of a block of job `b` has a free variable rooted at `jobs` whose second step is
the attribute access `.a`. A reference in another form (an index `jobs["a"]`, a splat)
contributes no edge. -/
theorem shallowPass_edges (blocks : List JobBlock) (g : Graph) (remains : GoMap Body)
    (h : shallowPass blocks = Except.ok (g, remains)) (b a : String) :
    (b, a) ∈ g.deps ↔ ∃ blk ∈ blocks, blk.Name = b ∧ RefersByAttr blk a :=
  shallowPass_deps blocks g remains h b a

/-- C3 in the cross-reference scenario: job `b` with `X = "${jobs.a.outputs[0]}"` yields the
edge from `a` to `b`. -/
theorem shallowPass_edges_witness :
    shallowPass [jobA, jobBRefA]
      = Except.ok (⟨[{ Name := "a" }, { Name := "b" }], [("b", "a")]⟩,
          [("a", jobA.Remain), ("b", jobBRefA.Remain)]) ∧
    (("b", "a") ∈ [("b", "a")] ↔ ∃ blk ∈ [jobA, jobBRefA], blk.Name = "b" ∧ RefersByAttr blk "a") :=
  ⟨by decide, shallowPass_edges [jobA, jobBRefA] ⟨[{ Name := "a" }, { Name := "b" }], [("b", "a")]⟩
    [("a", jobA.Remain), ("b", jobBRefA.Remain)] (by decide) "b" "a"⟩

/-- C3 as stated fails: job `b` refers to job `a` in the index form `jobs["a"].outputs`, a
free variable whose root is `jobs`, and the shallow pass gives the graph no dependency. -/
theorem shallowPass_index_form_counterexample :
    [Traverser.TraverseRoot "jobs", Traverser.TraverseIndex "a", Traverser.TraverseAttr "outputs"]
      ∈ (jobBIndexA.Remain.attributes.map Attribute.Variables).flatten ∧
    Traversal.RootName [Traverser.TraverseRoot "jobs", Traverser.TraverseIndex "a",
      Traverser.TraverseAttr "outputs"] = Except.ok "jobs" ∧
    (shallowPass [jobA, jobBIndexA]).toOption.map (fun r => r.1.deps) = some [] := by
  decide

/-- C10 fails on the code: for a job whose attribute is the bare reference `jobs`, the
traversal has one step, `variable[1]` is out of range and the shallow pass panics. -/
theorem shallowPass_bare_jobs_panics :
    Traversal.RootName [Traverser.TraverseRoot "jobs"] = Except.ok "jobs" ∧
    [Traverser.TraverseRoot "jobs"].length = 1 ∧
    shallowPass [jobBBareJobs]
      = Except.error (Failure.panic "index out of range [1] with length 1") := by
  decide

/-! ## decodeJob -/

theorem decodeJob_eq_iterate_of (w : World) (body : Body) (n : Nat) :
    ∀ (depth : Nat) (p : Parser) (job : Job), depth + n = 21 →
      (∀ k, k ≤ n → ∃ c, w.toCty (attemptResult w body p job k).1 = Except.ok c) →
      p.decodeJob w job body depth =
        (((decodeAttempt w body)^[n + 1] (p, job)).1,
          ((decodeAttempt w body)^[n + 1] (p, job)).2,
          checkErrors (some (GoError.diags (attemptResult w body p job n).2))) := by
  induction n with
  | zero =>
    intro depth p job hd hcty
    obtain ⟨c, hc⟩ := hcty 0 (Nat.le_refl 0)
    have hc' : w.toCty (w.decodeJobBody body p.vars job).1 = Except.ok c := hc
    have hgt : depth > 20 := by omega
    rw [Parser.decodeJob]
    simp [Parser.Decode, hc', hgt, decodeAttempt, attemptResult]
  | succ n ih =>
    intro depth p job hd hcty
    obtain ⟨c, hc⟩ := hcty 0 (Nat.zero_le _)
    have hc' : w.toCty (w.decodeJobBody body p.vars job).1 = Except.ok c := hc
    have hle : ¬ depth > 20 := by omega
    have hstep : decodeAttempt w body (p, job) =
        ({ p with
            decodeCalls := p.decodeCalls + 1
            vars := { p.vars with
              jobs := some (mapSet
                (match p.vars.jobs with
                  | none => []
                  | some m => m)
                (w.decodeJobBody body p.vars job).1.Name c) } },
          (w.decodeJobBody body p.vars job).1) := by
      simp [decodeAttempt, hc']
    have hshift : ∀ k, attemptResult w body p job (k + 1)
        = attemptResult w body (decodeAttempt w body (p, job)).1
            (decodeAttempt w body (p, job)).2 k := by
      intro k
      simp only [attemptResult, Function.iterate_succ_apply]
    have hcty' : ∀ k, k ≤ n →
        ∃ c, w.toCty (attemptResult w body (decodeAttempt w body (p, job)).1
          (decodeAttempt w body (p, job)).2 k).1 = Except.ok c := by
      intro k hk
      rw [← hshift k]
      exact hcty (k + 1) (by omega)
    have hrec := ih (depth + 1) (decodeAttempt w body (p, job)).1
      (decodeAttempt w body (p, job)).2 (by omega) hcty'
    rw [Parser.decodeJob]
    simp only [Parser.Decode, hc', hle, dite_false]
    have e₁ : (decodeAttempt w body)^[n + 1 + 1] (p, job)
        = (decodeAttempt w body)^[n + 1] (decodeAttempt w body (p, job)) :=
      Function.iterate_succ_apply (decodeAttempt w body) (n + 1) (p, job)
    rw [e₁, hshift n]
    rw [hstep] at hrec ⊢
    exact hrec

theorem decodeJob_eq_iterate (w : World) (body : Body)
    (hcty : ∀ j, ∃ c, w.toCty j = Except.ok c) (n : Nat)
    (depth : Nat) (p : Parser) (job : Job) (hd : depth + n = 21) :
    p.decodeJob w job body depth =
      (((decodeAttempt w body)^[n + 1] (p, job)).1,
        ((decodeAttempt w body)^[n + 1] (p, job)).2,
        checkErrors (some (GoError.diags
          (w.decodeJobBody body ((decodeAttempt w body)^[n] (p, job)).1.vars
            ((decodeAttempt w body)^[n] (p, job)).2).2))) :=
  decodeJob_eq_iterate_of w body n depth p job hd (fun _ _ => hcty _)

theorem decodeAttempt_decodeCalls (w : World) (body : Body) (s : Parser × Job) :
    (decodeAttempt w body s).1.decodeCalls = s.1.decodeCalls + 1 := by
  unfold decodeAttempt
  split <;> rfl

theorem iterate_decodeAttempt_decodeCalls (w : World) (body : Body) (k : Nat)
    (s : Parser × Job) :
    ((decodeAttempt w body)^[k] s).1.decodeCalls = s.1.decodeCalls + k := by
  induction k with
  | zero => rfl
  | succ k ih =>
    rw [Function.iterate_succ_apply', decodeAttempt_decodeCalls, ih]
    omega

theorem decodeJob_decodeCalls (w : World) (body : Body)
    (hcty : ∀ j, ∃ c, w.toCty j = Except.ok c) (p : Parser) (job : Job) :
    (p.decodeJob w job body 0).1.decodeCalls = p.decodeCalls + 22 := by
  rw [decodeJob_eq_iterate w body hcty 21 0 p job rfl]
  exact iterate_decodeAttempt_decodeCalls w body 22 (p, job)

/-- C4 (amended): called with depth 0 for a job whose body produces error diagnostics at
each of the decode attempts made (`ToCty` succeeding at each of them), `decodeJob` gives up
once the depth exceeds 20: it makes exactly 22 decode attempts, at depths 0 to 21, and
returns the diagnostics of the last attempt as its error. -/
theorem decodeJob_gives_up (w : World) (p : Parser) (job : Job) (body : Body)
    (hcty : ∀ k, k ≤ 21 → ∃ c, w.toCty (attemptResult w body p job k).1 = Except.ok c)
    (herr : ∀ k, k ≤ 21 → HasErrors (attemptResult w body p job k).2 = true) :
    (p.decodeJob w job body 0).1.decodeCalls = p.decodeCalls + 22 ∧
    (p.decodeJob w job body 0).2.2 =
      some (GoError.diags (attemptResult w body p job 21).2) := by
  rw [decodeJob_eq_iterate_of w body 21 0 p job rfl hcty]
  refine ⟨iterate_decodeAttempt_decodeCalls w body 22 (p, job), ?_⟩
  simp [checkErrors, herr 21 (Nat.le_refl 21)]

/-- C4 on a job whose body refers to a job `z` that is never declared: each of the 22
attempts reports the unknown variable (the variable `jobs` holds only job `a`), and that
diagnostic is returned after 22 decode attempts. -/
theorem decodeJob_gives_up_witness :
    (∀ k, k ≤ 21 → ∃ c, unresolvedWorld.toCty
      (attemptResult unresolvedWorld nilBody emptyConfig { Name := "a" } k).1 = Except.ok c) ∧
    (∀ k, k ≤ 21 → HasErrors
      (attemptResult unresolvedWorld nilBody emptyConfig { Name := "a" } k).2 = true) ∧
    (emptyConfig.decodeJob unresolvedWorld { Name := "a" } nilBody 0).1.decodeCalls = 22 ∧
    (emptyConfig.decodeJob unresolvedWorld { Name := "a" } nilBody 0).2.2 =
      some (GoError.diags [⟨Severity.DiagError, "Unknown variable jobs.z"⟩]) := by
  have hcty : ∀ k, k ≤ 21 → ∃ c, unresolvedWorld.toCty
      (attemptResult unresolvedWorld nilBody emptyConfig { Name := "a" } k).1 = Except.ok c :=
    fun _ _ => ⟨_, rfl⟩
  have herr : ∀ k, k ≤ 21 → HasErrors
      (attemptResult unresolvedWorld nilBody emptyConfig { Name := "a" } k).2 = true := by
    decide
  have h := decodeJob_gives_up unresolvedWorld emptyConfig { Name := "a" } nilBody hcty herr
  refine ⟨hcty, herr, h.1, ?_⟩
  rw [h.2]
  decide

/-- C4 as stated fails: for a job whose body reports an error at every attempt, `decodeJob`
called with depth 0 makes 22 decode attempts, more than 20. -/
theorem decodeJob_attempts_counterexample :
    (∀ vars j, HasErrors (failingWorld.decodeJobBody nilBody vars j).2 = true) ∧
    (emptyConfig.decodeJob failingWorld { Name := "a" } nilBody 0).1.decodeCalls = 22 ∧
    ¬ (emptyConfig.decodeJob failingWorld { Name := "a" } nilBody 0).1.decodeCalls ≤ 20 := by
  have h := decodeJob_decodeCalls failingWorld nilBody (fun j => ⟨⟨j⟩, rfl⟩) emptyConfig
    { Name := "a" }
  have h22 : (emptyConfig.decodeJob failingWorld { Name := "a" } nilBody 0).1.decodeCalls = 22 :=
    h
  exact ⟨fun _ _ => rfl, h22, by rw [h22]; decide⟩

/-- C5 fails on the code: for a job whose first (and every) decode attempt produces no
diagnostics at all, `decodeJob` returns nil, but only after 22 decode attempts instead of
one: the `error` returned by `Decode` always has the dynamic type `hcl.Diagnostics`, so the
type switch always takes the retry branch. -/
theorem decodeJob_clean_body_retries :
    (exampleWorld.decodeJobBody nilBody emptyConfig.vars { Name := "a" }).2 = [] ∧
    (emptyConfig.decodeJob exampleWorld { Name := "a" } nilBody 0).2.2 = none ∧
    (emptyConfig.decodeJob exampleWorld { Name := "a" } nilBody 0).1.decodeCalls = 22 ∧
    (emptyConfig.decodeJob exampleWorld { Name := "a" } nilBody 0).1.decodeCalls ≠ 1 := by
  have h := decodeJob_decodeCalls exampleWorld nilBody (fun j => ⟨⟨j⟩, rfl⟩) emptyConfig
    { Name := "a" }
  have h22 :
      (emptyConfig.decodeJob exampleWorld { Name := "a" } nilBody 0).1.decodeCalls = 22 := h
  refine ⟨rfl, ?_, h22, by rw [h22]; decide⟩
  rw [decodeJob_eq_iterate exampleWorld nilBody (fun j => ⟨⟨j⟩, rfl⟩) 21 0 emptyConfig
    { Name := "a" } rfl]
  rfl

/-! ## kaniko -/

/-- C7 fails on the code: with `DOCKER_USER=u`, `DOCKER_PASS=p` and no `DOCKER_REGISTRY`, the
document written has the single entry `https://index.docker.io/v1/` with the token
`base64("u:p")`, but under the member name `Auth`, not `auth`: the tag of the field `Auth`
lacks the colon after `json`, so `encoding/json` finds no name in it and uses the Go field
name. -/
theorem kaniko_config_member_is_Auth :
    StructTag.Get DockerAuth.AuthField.Tag "json" = "" ∧
    jsonFieldName DockerAuth.AuthField = some "Auth" ∧
    jsonFieldName DockerConfig.AuthsField = some "auths" ∧
    EncodeToString "u:p" = "dTpw" ∧
    kanikoConfigJson dockerEnviron
      = some (Json.obj [("auths", Json.obj [("https://index.docker.io/v1/",
          Json.obj [("Auth", Json.str "dTpw")])])]) ∧
    kanikoConfigJson dockerEnviron
      ≠ some (registryConfigForm "index.docker.io" (EncodeToString "u:p")) := by
  have hjson : kanikoConfigJson dockerEnviron
      = some (Json.obj [("auths", Json.obj [("https://index.docker.io/v1/",
          Json.obj [("Auth", Json.str "dTpw")])])]) := by
    rfl
  refine ⟨by decide, by decide, by decide, by decide, hjson, ?_⟩
  rw [hjson]
  intro h
  simp only [registryConfigForm, Option.some.injEq, Json.obj.injEq, List.cons.injEq,
    Prod.mk.injEq, Json.str.injEq, and_true, true_and] at h
  exact absurd h.2.1 (by decide)

/-! ## The visiting order -/

theorem Before_append (a b : String) (l l' : List String) (h : Before a b l) :
    Before a b (l ++ l') := by
  obtain ⟨ha, hb, hlt⟩ := h
  refine ⟨List.mem_append_left _ ha, List.mem_append_left _ hb, ?_⟩
  rw [List.indexOf_append_of_mem ha, List.indexOf_append_of_mem hb]
  exact hlt

theorem Before_append_new (a b : String) (l : List String) (ha : a ∈ l) (hb : b ∉ l) :
    Before a b (l ++ [b]) := by
  refine ⟨List.mem_append_left _ ha, by simp, ?_⟩
  rw [List.indexOf_append_of_mem ha, List.indexOf_append_of_not_mem hb]
  have := List.indexOf_lt_length.mpr ha
  omega

theorem EdgesRespected_step (g : Graph) (visited : List Job) (n : Job)
    (hinv : EdgesRespected g visited) (hready : nodeReady g visited n = true) :
    EdgesRespected g (visited ++ [n]) := by
  intro e he hnode hmem
  rw [List.map_append, List.map_cons, List.map_nil] at hmem ⊢
  by_cases hv : e.1 ∈ visited.map Job.Name
  · exact Before_append _ _ _ _ (hinv e he hnode hv)
  · have hen : e.1 = n.Name := by
      rcases List.mem_append.mp hmem with h | h
      · exact absurd h hv
      · simpa using h
    have hall := List.all_eq_true.mp hready e he
    simp only [Bool.or_eq_true, decide_eq_true_eq] at hall
    have hpre : e.2 ∈ visited.map Job.Name := by
      rcases hall with (h | h) | h
      · exact absurd hen h
      · exact absurd hnode h
      · exact h
    rw [← hen]
    exact Before_append_new _ _ _ hpre hv

theorem visitReady_sound (g : Graph) (fuel : Nat) :
    ∀ (remaining visited order : List Job),
      visitReady g fuel remaining visited = Except.ok order →
      EdgesRespected g visited →
      EdgesRespected g order ∧ order.Perm (visited ++ remaining) := by
  induction fuel with
  | zero =>
    intro remaining visited order h hinv
    unfold visitReady at h
    split at h
    · rename_i hr
      simp only [Except.ok.injEq] at h
      subst h
      subst hr
      exact ⟨hinv, by simp⟩
    · simp at h
  | succ fuel ih =>
    intro remaining visited order h hinv
    unfold visitReady at h
    split at h
    · split at h
      · rename_i hr
        simp only [Except.ok.injEq] at h
        subst h
        subst hr
        exact ⟨hinv, by simp⟩
      · simp at h
    · rename_i n hfind
      have hready := List.find?_some hfind
      have hmem := List.mem_of_find?_eq_some hfind
      obtain ⟨h₁, h₂⟩ := ih _ _ order h (EdgesRespected_step g visited n hinv hready)
      refine ⟨h₁, h₂.trans ?_⟩
      rw [List.append_assoc]
      exact List.Perm.append_left _ (List.perm_cons_erase hmem).symm

theorem sortedOrder_topological (g : Graph) (order : List Job)
    (h : sortedOrder g = Except.ok order) : IsTopological g order := by
  have hinv : EdgesRespected g [] := by
    intro e _ _ hmem
    simp at hmem
  obtain ⟨h₁, h₂⟩ := visitReady_sound g _ _ _ order h hinv
  have hperm : order.Perm g.nodes := by
    rw [List.nil_append] at h₂
    exact h₂.trans (List.perm_insertionSort nameLE g.nodes)
  have hmem : ∀ n, n ∈ order.map Job.Name ↔ n ∈ g.nodes.map Job.Name :=
    fun n => (hperm.map Job.Name).mem_iff
  refine ⟨hmem, ?_⟩
  intro e he h1 h2
  exact h₁ e he h2 ((hmem e.1).mpr h1)

/-! ## DecodeJobs -/

theorem decodeJob_name (w : World) (body : Body)
    (hname : ∀ b vars j, (w.decodeJobBody b vars j).1.Name = j.Name) (n : Nat) :
    ∀ (depth : Nat) (p : Parser) (job : Job), 21 - depth ≤ n →
      (p.decodeJob w job body depth).2.1.Name = job.Name := by
  induction n with
  | zero =>
    intro depth p job hd
    have hgt : depth > 20 := by omega
    rw [Parser.decodeJob]
    simp only [Parser.Decode]
    cases hc : w.toCty (w.decodeJobBody body p.vars job).1 with
    | error e => exact hname _ _ _
    | ok c =>
      simp only [hgt, dite_true]
      exact hname _ _ _
  | succ n ih =>
    intro depth p job hd
    rw [Parser.decodeJob]
    simp only [Parser.Decode]
    cases hc : w.toCty (w.decodeJobBody body p.vars job).1 with
    | error e => exact hname _ _ _
    | ok c =>
      by_cases hgt : depth > 20
      · simp only [hgt, dite_true]
        exact hname _ _ _
      · simp only [hgt, dite_false]
        rw [ih (depth + 1) _ _ (by omega)]
        exact hname _ _ _

theorem visitAll_names (w : World) (remains : GoMap Body)
    (hname : ∀ b vars j, (w.decodeJobBody b vars j).1.Name = j.Name) (order : List Job) :
    ∀ (p p' : Parser) (acc jobs : List Job),
      visitAll (visitJob w remains) order (p, acc) = ((p', jobs), []) →
      jobs.map Job.Name = acc.map Job.Name ++ order.map Job.Name := by
  induction order with
  | nil =>
    intro p p' acc jobs h
    simp only [visitAll, Prod.mk.injEq, and_true] at h
    rw [← h.2]
    simp
  | cons node order ih =>
    intro p p' acc jobs h
    have hn := decodeJob_name w ((mapGet remains node.Name).getD nilBody) hname 21 0 p node
      (by omega)
    unfold visitAll visitJob at h
    rcases hd : p.decodeJob w node ((mapGet remains node.Name).getD nilBody) 0
      with ⟨p₁, job, err⟩
    rw [hd] at hn
    simp only [hd] at h
    cases err with
    | some e => simp at h
    | none =>
      simp only at h
      rw [ih p₁ p' (acc ++ [job]) jobs h]
      simp only [List.map_append, List.map_cons, List.map_nil, List.append_assoc,
        List.singleton_append]
      simp only at hn
      rw [hn]

theorem DecodeJobs_ok (w : World) (p p' : Parser) (jobs : List Job)
    (h : p.DecodeJobs w = Except.ok (p', jobs)) :
    ∃ g remains order p₁, shallowPass p.body.Jobs = Except.ok (g, remains) ∧
      w.iterOrder g = Except.ok order ∧
      visitAll (visitJob w remains) order (p₁, []) = ((p', jobs), []) := by
  unfold Parser.DecodeJobs Parser.DecodeBody Parser.Decode at h
  simp only at h
  split at h
  · simp at h
  · split at h
    · simp at h
    · rename_i g remains hs
      cases ho : w.iterOrder g with
      | error e => simp [ho, Graph.IterSorted] at h
      | ok order =>
        simp only [ho, Graph.IterSorted] at h
        split at h
        · simp at h
        · rename_i p₂ jobs₂ hv
          simp only [Except.ok.injEq, Prod.mk.injEq] at h
          obtain ⟨h₁, h₂⟩ := h
          subst h₁ h₂
          exact ⟨g, remains, order, _, hs, ho, hv⟩

/-- C2 (amended): when `DecodeJobs` succeeds, with `IterSorted` visiting the nodes in a
topological order of the edges it was given and the decoder leaving the label field `Name`
as it is, the returned jobs are the declared jobs and their order is consistent with the
edges from attribute-form references: whenever an attribute expression of job `b` has a
free variable `jobs.a…` and `a` is a declared job, `a` appears before `b`. -/
theorem DecodeJobs_order (w : World) (p p' : Parser) (jobs : List Job) (blk : JobBlock)
    (a : String)
    (htopo : ∀ g order, w.iterOrder g = Except.ok order → IsTopological g order)
    (hname : ∀ b vars j, (w.decodeJobBody b vars j).1.Name = j.Name)
    (hok : p.DecodeJobs w = Except.ok (p', jobs))
    (hblk : blk ∈ p.body.Jobs)
    (href : RefersByAttr blk a)
    (ha : ∃ blk' ∈ p.body.Jobs, blk'.Name = a) :
    (∀ n, n ∈ jobs.map Job.Name ↔ ∃ blk' ∈ p.body.Jobs, blk'.Name = n) ∧
    Before a blk.Name (jobs.map Job.Name) := by
  obtain ⟨g, remains, order, p₁, hs, ho, hv⟩ := DecodeJobs_ok w p p' jobs hok
  obtain ⟨hmem, hedges⟩ := htopo g order ho
  have hnames : jobs.map Job.Name = order.map Job.Name := by
    have := visitAll_names w remains hname order p₁ p' [] jobs hv
    simpa using this
  rw [hnames]
  refine ⟨fun n => (hmem n).trans (shallowPass_nodes _ g remains hs n), ?_⟩
  have hedge : (blk.Name, a) ∈ g.deps :=
    (shallowPass_deps _ g remains hs blk.Name a).mpr ⟨blk, hblk, rfl, href⟩
  exact hedges (blk.Name, a) hedge
    ((shallowPass_nodes _ g remains hs blk.Name).mpr ⟨blk, hblk, rfl⟩)
    ((shallowPass_nodes _ g remains hs a).mpr ha)

/-- C2 in the cross-reference scenario, job `b` being declared first: `DecodeJobs` succeeds
and returns job `a` before job `b`. -/
theorem DecodeJobs_order_witness :
    ∃ p' jobs, crossRefConfig.DecodeJobs sortedWorld = Except.ok (p', jobs) ∧
      jobs = [{ Name := "a" }, { Name := "b" }] ∧
      Before "a" "b" (jobs.map Job.Name) := by
  have heval : (crossRefConfig.DecodeJobs sortedWorld).toOption.map (fun r => r.2)
      = some [{ Name := "a" }, { Name := "b" }] := by
    have hd : ∀ (p : Parser) (job : Job) (body : Body),
        p.decodeJob sortedWorld job body 0 = _ :=
      fun p job body =>
        decodeJob_eq_iterate sortedWorld body (fun j => ⟨⟨j⟩, rfl⟩) 21 0 p job rfl
    unfold Parser.DecodeJobs visitJob
    simp only [hd]
    rfl
  cases hr : crossRefConfig.DecodeJobs sortedWorld with
  | error f =>
    rw [hr] at heval
    simp [Except.toOption] at heval
  | ok r =>
    obtain ⟨p', jobs⟩ := r
    rw [hr] at heval
    simp only [Except.toOption, Option.map_some', Option.some.injEq] at heval
    exact ⟨p', jobs, rfl, heval,
      (DecodeJobs_order sortedWorld crossRefConfig p' jobs jobBRefA "a"
        (fun g order h => sortedOrder_topological g order h) (fun _ _ _ => rfl) hr
        (by decide)
        ⟨⟨"env", [[Traverser.TraverseRoot "jobs", Traverser.TraverseAttr "a",
            Traverser.TraverseAttr "outputs", Traverser.TraverseIndex "0"]]⟩, by decide,
          [Traverser.TraverseAttr "outputs", Traverser.TraverseIndex "0"], by decide⟩
        ⟨jobA, by decide, rfl⟩).2⟩

/-- C2 as stated fails: job `a` declares `deps = ["b"]`; the shallow pass gives the graph no
edge for it, the graph visits `a` before `b` (a topological order of the edges it was
given), and `DecodeJobs` returns `a`, whose `Deps` name `b`, before `b`. -/
theorem DecodeJobs_explicit_deps_counterexample :
    (∀ g order, depsWorld.iterOrder g = Except.ok order → IsTopological g order) ∧
    (∀ b vars j, (depsWorld.decodeJobBody b vars j).1.Name = j.Name) ∧
    (shallowPass explicitDepsConfig.body.Jobs).toOption.map (fun r => r.1.deps) = some [] ∧
    (explicitDepsConfig.DecodeJobs depsWorld).toOption.map (fun r => r.2)
      = some [{ Name := "a", Deps := ["b"] }, { Name := "b" }] ∧
    ¬ Before "b" "a" ["a", "b"] := by
  refine ⟨fun g order h => sortedOrder_topological g order h, ?_, by decide, ?_, by decide⟩
  · intro b vars j
    simp only [depsWorld]
    split <;> rfl
  · have hd : ∀ (p : Parser) (job : Job) (body : Body),
        p.decodeJob depsWorld job body 0 = _ :=
      fun p job body =>
        decodeJob_eq_iterate depsWorld body (fun j => ⟨⟨j⟩, rfl⟩) 21 0 p job rfl
    unfold Parser.DecodeJobs visitJob
    simp only [hd]
    rfl

end Hone
